import Mathlib

/-!
# LibStored.Arq example (`examples/Arq/LibStored.Arq/main.cpp`)

A shallow embedding of the `LossyChannel` protocol layer (the fault injector) and of
`main` (assembly of the protocol stack and the poll loop), with the properties the
specification states about them.

Conventions of the embedding:

* a `char` is its 8-bit pattern, a `Fin 256`;
* the C library's random sources (`drand48()` / `rand()`) are two fixed sequences of
  values together with the number of values consumed so far;
* a `double` is modelled as far as the comparison `<` can observe it;
* a call on the base class (`stored::ProtocolLayer`, not part of the sources) is
  recorded in a log of the calls made.
-/

namespace LibStored.Arq

/-! ## Doubles, as far as `p < ber()` observes them -/

/-- An IEEE-754 binary64 value up to what ordered comparison can tell apart:
NaN, the two infinities, or a finite value `m * 2 ^ e` (every finite double is of this
form; both zeroes have `m = 0`). -/
inductive Double where
  | nan
  | negInf
  | finite (m : Int) (e : Int)
  | posInf
  deriving DecidableEq

/-- Comparison `m₁ * 2 ^ e₁ < m₂ * 2 ^ e₂` of two finite values, after scaling both to the
smaller exponent. -/
def finiteLt (m₁ e₁ m₂ e₂ : Int) : Bool :=
  decide (m₁ * 2 ^ (e₁ - min e₁ e₂).toNat < m₂ * 2 ^ (e₂ - min e₁ e₂).toNat)

/-- Comparison `m₁ * 2 ^ e₁ ≤ m₂ * 2 ^ e₂` of two finite values. -/
def finiteLe (m₁ e₁ m₂ e₂ : Int) : Bool :=
  decide (m₁ * 2 ^ (e₁ - min e₁ e₂).toNat ≤ m₂ * 2 ^ (e₂ - min e₁ e₂).toNat)

/-- The C++ `operator<` on doubles: false as soon as one side is NaN. -/
def Double.lt : Double → Double → Bool
  | .finite m₁ e₁, .finite m₂ e₂ => finiteLt m₁ e₁ m₂ e₂
  | .finite _ _, .posInf => true
  | .negInf, .finite _ _ => true
  | .negInf, .posInf => true
  | _, _ => false

/-- The C++ `operator<=` on doubles: false as soon as one side is NaN. -/
def Double.le : Double → Double → Bool
  | .finite m₁ e₁, .finite m₂ e₂ => finiteLe m₁ e₁ m₂ e₂
  | .finite _ _, .posInf => true
  | .negInf, .finite _ _ => true
  | .negInf, .posInf => true
  | .negInf, .negInf => true
  | .posInf, .posInf => true
  | _, _ => false

/-- The double `0.0`. -/
def Double.zero : Double := .finite 0 0

/-- A value returned by the probability draw (`drand48()`, or `(double)rand() / RAND_MAX`
on Windows): a non-negative finite double `num * 2 ^ exp`. For `drand48()` the exponent is
`-48` and `num < 2 ^ 48`. -/
structure Draw where
  num : Nat
  exp : Int
  deriving DecidableEq

/-- The draw as a double. -/
def Draw.toDouble (p : Draw) : Double := .finite (p.num : Int) p.exp

/-! ## The store, the random sources, the world -/

/-- Modelled from the spec: the three variables of `ArqStore` that `main.cpp` uses. Their
declaration (`ArqStore.h`) is not part of the sources. `ber` is read as a `double`
(`double ber() const`), `MTU` is a non-negative integer, and `injected_errors` is the
"monotonically increasing count" of the specification, a natural number. -/
structure Store where
  ber : Double
  MTU : Nat
  injected_errors : Nat
  deriving DecidableEq

/-- The C library's random sources: the sequence of values the probability draw returns,
the sequence of values `rand()` returns for the bit position, and how many values of each
have been consumed. Where the probability draw is `(double)rand() / RAND_MAX`, both
sequences are taken from the one stream of `rand()`; every run is still a run over some
pair of sequences. -/
structure Random where
  drand48 : Nat → Draw
  rand : Nat → Nat
  nd : Nat
  nr : Nat

/-- A byte (`char`), as its bit pattern. -/
abbrev Byte := Fin 256

/-- A call made on the base class `stored::ProtocolLayer`. -/
inductive BaseCall where
  | decode (buffer : List Byte) (len : Nat)
  | encode (buffer : List Byte) (len : Nat) (last : Bool)
  deriving DecidableEq

/-- Everything `LossyChannel` reads or writes: the global store, the random sources and the
log of the calls forwarded to the base class. -/
structure World where
  store : Store
  random : Random
  baseCalls : List BaseCall

/-! ## The chain of protocol layers -/

/-- The protocol layers that `main` constructs, by the name of the variable. -/
inductive LayerId where
  | segmentation
  | arq
  | crc
  | escape
  | terminal
  | buffer
  | lossy
  | zmq
  deriving DecidableEq

/-- The two neighbour pointers of a `stored::ProtocolLayer`: `up` towards the application,
`down` towards the wire; `none` is `nullptr`. -/
structure Links where
  up : Option LayerId
  down : Option LayerId
  deriving DecidableEq

/-- The neighbour pointers of every layer. -/
abbrev Chain := LayerId → Links

/-- Set the `up` pointer of layer `l`. -/
def setUp (l : LayerId) (u : Option LayerId) (c : Chain) : Chain :=
  fun x => if x = l then { c x with up := u } else c x

/-- Set the `down` pointer of layer `l`. -/
def setDown (l : LayerId) (d : Option LayerId) (c : Chain) : Chain :=
  fun x => if x = l then { c x with down := d } else c x

/-- Modelled from the spec: `ProtocolLayer::wrap` is library code that is not part of the
sources. `self.wrap(x)` inserts `self` directly below `x`: `self` takes over the down
neighbour that `x` had (which gets `self` as its up neighbour), and `self` becomes the
new down neighbour of `x`, with `x` as its up neighbour. -/
def wrap (self x : LayerId) (c : Chain) : Chain :=
  let d := (c x).down
  let c₁ := setDown self d c
  let c₂ := match d with
    | some below => setUp below (some self) c₁
    | none => c₁
  setUp self (some x) (setDown x (some self) c₂)

/-- Modelled from the spec: a layer that has just been constructed has no neighbours
(`LossyChannel(ProtocolLayer* up = nullptr, ProtocolLayer* down = nullptr)`; the
constructors of the library layers are not part of the sources). -/
def freshLayers : Chain := fun _ => { up := none, down := none }

/-- The layer `main` hands to `synchronizer.connect(...)`. -/
def connectedLayer : LayerId := LayerId.segmentation

/-- The chain after the `wrap` calls of `main`, in program order. -/
def assembledChain : Chain :=
  wrap LayerId.zmq LayerId.lossy
    (wrap LayerId.lossy LayerId.buffer
      (wrap LayerId.buffer LayerId.terminal
        (wrap LayerId.terminal LayerId.escape
          (wrap LayerId.escape LayerId.crc
            (wrap LayerId.crc LayerId.arq
              (wrap LayerId.arq LayerId.segmentation freshLayers))))))

/-- The layers met by following `down` pointers from `l`, `l` first; `fuel` bounds the
number of layers visited. -/
def downPath (c : Chain) : Nat → LayerId → List LayerId
  | 0, _ => []
  | fuel + 1, l =>
    match (c l).down with
    | some d => l :: downPath c fuel d
    | none => [l]

/-! ## The poller and the loop of `main` -/

/-- The events a pollable is registered for. -/
inductive PollEvents where
  | PollIn
  | PollOut
  deriving DecidableEq

/-- A readiness source: `stored::PollableZmqLayer(layer, events)`. -/
structure Pollable where
  layer : LayerId
  events : PollEvents
  deriving DecidableEq

/-- Modelled from the spec: `stored::Poller` is library code that is not part of the
sources. A poller holds the readiness sources registered with it. -/
structure Poller where
  sources : List Pollable
  deriving DecidableEq

/-- Modelled from the spec: a poller that has just been constructed (`stored::Poller poller;`)
has no readiness source; sources are registered by adding them. -/
def Poller.fresh : Poller := { sources := [] }

/-- Modelled from the spec: registering a readiness source with a poller. -/
def Poller.add (p : Poller) (src : Pollable) : Poller := { sources := p.sources ++ [src] }

/-- The objects of `main` when the `while(true)` loop is entered. -/
structure MainState where
  chain : Chain
  connected : LayerId
  poller : Poller
  pollableZmq : Pollable

/-- The statements of `main` before the loop (lines 92 to 119), in program order: the
synchronizer is connected to `segmentation`, the layers are wrapped, the poller and the
pollable of `zmq` are constructed. No statement registers anything with the poller. -/
def mainSetup : MainState :=
  { chain := assembledChain
    connected := connectedLayer
    poller := Poller.fresh
    pollableZmq := { layer := LayerId.zmq, events := PollEvents.PollIn } }

/-- What the environment does in one iteration of the loop: whether the result of
`poller.poll(100)` is empty, the value of `errno` after it, and the status with which
`zmq.recv()` ends (`0` for success, an error number otherwise). -/
structure Iteration where
  resultEmpty : Bool
  errno : Int
  recvStatus : Int
  deriving DecidableEq

/-- The calls `main` makes in its loop. -/
inductive Event where
  | poll (timeout_ms : Int)
  | perror (msg : String)
  | recv
  | process
  deriving DecidableEq

/-- The values of the `errno.h` constants the loop compares with. -/
structure Errno where
  EAGAIN : Int
  EINTR : Int

/-- One iteration of `while(true)`: the calls made, and the value `main` returns if it
returns in this iteration. The value of `zmq.recv()` is discarded. -/
def loopBody (E : Errno) (it : Iteration) : List Event × Option Int :=
  if it.resultEmpty then
    if it.errno = E.EAGAIN ∨ it.errno = E.EINTR then
      ([Event.poll 100, Event.recv, Event.process], none)
    else
      ([Event.poll 100, Event.perror "poll failed"], some 1)
  else
    ([Event.poll 100, Event.recv, Event.process], none)

/-- The loop of `main` against the iterations the environment provides: the calls made and
the value returned, `none` when `main` is still looping after the last of them. The
`return 0;` behind the loop is not reachable: `while(true)` has no exit but `return 1;`
(the `break` leaves the `switch`). -/
def mainLoop (E : Errno) : List Iteration → List Event × Option Int
  | [] => ([], none)
  | it :: rest =>
    match loopBody E it with
    | (events, some code) => (events, some code)
    | (events, none) =>
      match mainLoop E rest with
      | (later, result) => (events ++ later, result)

/-- The calls of `n` iterations that go through: `n` times poll, receive, process. -/
def passes : Nat → List Event
  | 0 => []
  | n + 1 => [Event.poll 100, Event.recv, Event.process] ++ passes n

/-- The poll failed: the result is empty and `errno` is neither `EAGAIN` nor `EINTR`. -/
def pollFailed (E : Errno) (it : Iteration) : Bool :=
  it.resultEmpty && !(decide (it.errno = E.EAGAIN) || decide (it.errno = E.EINTR))

/-! ## `LossyChannel` -/

/-- Source: `double ber() const { return store.ber; }` -/
def ber (w : World) : Double := w.store.ber

/-- The expression `(char)(b ^ (char)(1 << (r % 8)))` on bit patterns, `r` the value of `rand()`. -/
def flipBit (b : Byte) (r : Nat) : Byte :=
  ⟨(b.val ^^^ ((1 <<< (r % 8)) % 256)) % 256, Nat.mod_lt _ (by decide)⟩

/-- One iteration of the loop of `lossyByte`: draw `p`; if `p < ber()`, flip the bit at
position `rand() % 8` and add one to `store.injected_errors`. -/
def lossyIteration (b : Byte) (w : World) : Byte × World :=
  let p := (w.random.drand48 w.random.nd).toDouble
  let w₁ : World := { w with random := { w.random with nd := w.random.nd + 1 } }
  if p.lt (ber w₁) then
    let r := w₁.random.rand w₁.random.nr
    let w₂ : World := { w₁ with random := { w₁.random with nr := w₁.random.nr + 1 } }
    (flipBit b r,
      { w₂ with store := { w₂.store with injected_errors := w₂.store.injected_errors + 1 } })
  else
    (b, w₁)

/-- The loop `for(int i = 0; i < 8; i++)` of `lossyByte`, with `n` iterations left. -/
def lossyByteLoop : Nat → Byte → World → Byte × World
  | 0, b, w => (b, w)
  | n + 1, b, w =>
    match lossyIteration b w with
    | (b₁, w₁) => lossyByteLoop n b₁ w₁

/-- Source: `char lossyByte(char b)`, the eight iterations of its loop. -/
def lossyByte (b : Byte) (w : World) : Byte × World :=
  lossyByteLoop 8 b w

/-- The loop `for(size_t i = 0; i < len; i++) buffer_[i] = lossyByte(...[i]);` shared by
`decode` and `encode`, over the `len` bytes of the buffer. -/
def lossyBuffer : List Byte → World → List Byte × World
  | [], w => ([], w)
  | b :: bs, w =>
    let first := lossyByte b w
    let rest := lossyBuffer bs first.2
    (first.1 :: rest.1, rest.2)

/-- What a call of `decode` or `encode` leaves behind: the content of the caller's buffer
and the world. -/
structure CallResult where
  callerBuffer : List Byte
  world : World

/-- Source: `void decode(void* buffer, size_t len)`: the bytes are replaced in place, then the
buffer is handed to `base::decode`. -/
def decode (buffer : List Byte) (w : World) : CallResult :=
  let r := lossyBuffer buffer w
  { callerBuffer := r.1
    world := { r.2 with baseCalls := r.2.baseCalls ++ [BaseCall.decode r.1 buffer.length] } }

/-- Source: `void encode(void const* buffer, size_t len, bool last)`: the bytes are written to a
fresh `alloca` buffer, which is handed to `base::encode`; the caller's buffer is only
read. -/
def encode (buffer : List Byte) (last : Bool) (w : World) : CallResult :=
  let r := lossyBuffer buffer w
  { callerBuffer := buffer
    world :=
      { r.2 with baseCalls := r.2.baseCalls ++ [BaseCall.encode r.1 buffer.length last] } }

/-- The conversion `store.MTU.as<size_t>()` is library code that is not part of the
sources; it is the parameter `asSizeT` of `mtu`, which takes the stored value to the
`size_t` handed out. -/
abbrev SizeConversion := Nat → Nat

/-- Source: `size_t mtu() const { return store.MTU.as<size_t>(); }`, a `const` member: the value
returned, and the world it leaves. What the member could consult and does not is passed
as well: the chain `c` the layer sits in (its neighbours) and the `mtu()` of every other
layer. -/
def mtu (asSizeT : SizeConversion) (_c : Chain) (_mtuOf : LayerId → Nat) (w : World) :
    Nat × World :=
  (asSizeT w.store.MTU, w)

/-! ## Quantities the properties are stated with -/

/-- The number of bit positions in which two bytes differ. -/
def hamming (a b : Byte) : Nat :=
  (List.range 8).countP (fun i => a.val.testBit i != b.val.testBit i)

/-- The number of bit positions in which two buffers differ, byte by byte. -/
def hammingBuffer : List Byte → List Byte → Nat
  | a :: as, b :: bs => hamming a b + hammingBuffer as bs
  | _, _ => 0

/-- The number of set bits among the low eight bits. -/
def popCount (x : Nat) : Nat := (List.range 8).countP (fun i => x.testBit i)

/-- The number of the next `n` probability draws that are below the bit error rate. -/
def injections (w : World) (n : Nat) : Nat :=
  (List.range n).countP
    (fun i => (w.random.drand48 (w.random.nd + i)).toDouble.lt w.store.ber)

/-- The byte after `k` injections: bit `rand() % 8` is flipped for each of the next `k`
values of `rand()`, in the order they are drawn. -/
def flips (b : Byte) (w : World) (k : Nat) : Byte :=
  (List.range k).foldl (fun acc j => flipBit acc (w.random.rand (w.random.nr + j))) b

/-- The world after `n` probability draws of which `k` led to an injection. -/
def advance (w : World) (n k : Nat) : World :=
  { store := { w.store with injected_errors := w.store.injected_errors + k }
    random := { w.random with nd := w.random.nd + n, nr := w.random.nr + k }
    baseCalls := w.baseCalls }

/-! ## Concrete worlds -/

/-- A world with a bit error rate of `0.0`: `drand48()` returns `0.0` and then `0.75` for
ever, and `rand()` returns `5`. -/
def quietWorld : World :=
  { store := { ber := Double.zero, MTU := 256, injected_errors := 7 }
    random :=
      { drand48 := fun i => if i = 0 then { num := 0, exp := -48 } else { num := 3, exp := -2 }
        rand := fun _ => 5
        nd := 0
        nr := 0 }
    baseCalls := [] }

/-- A world in which only the first probability draw is below the bit error rate: the rate
is `0.5`, `drand48()` returns `0.0` and then `0.75` for ever, and `rand()` returns `3`. -/
def firstDrawWorld : World :=
  { store := { ber := Double.finite 1 (-1), MTU := 256, injected_errors := 0 }
    random :=
      { drand48 := fun i => if i = 0 then { num := 0, exp := -48 } else { num := 3, exp := -2 }
        rand := fun _ => 3
        nd := 0
        nr := 0 }
    baseCalls := [] }

/-- A world in which every probability draw is below the bit error rate and every
injection hits bit 0: the rate is `1.0`, `drand48()` returns `0.0` and `rand()` returns
`0`. -/
def sameBitWorld : World :=
  { store := { ber := Double.finite 1 0, MTU := 256, injected_errors := 0 }
    random :=
      { drand48 := fun _ => { num := 0, exp := -48 }
        rand := fun _ => 0
        nd := 0
        nr := 0 }
    baseCalls := [] }

/-! # Properties -/

/-! ## The loop of `lossyByte` in closed form -/

theorem injections_succ (w : World) (n : Nat) :
    injections w (n + 1) =
      (if (w.random.drand48 w.random.nd).toDouble.lt w.store.ber then 1 else 0)
        + injections (advance w 1 0) n := by
  unfold injections
  rw [List.range_succ_eq_map, List.countP_cons, List.countP_map]
  simp only [advance, Function.comp_def, Nat.add_zero]
  rw [Nat.add_comm]
  congr 2
  funext i
  congr 3
  omega

theorem injections_advance_flip (w : World) (n k : Nat) :
    injections (advance w n k) = injections (advance w n 0) := rfl

theorem injections_le (w : World) (n : Nat) : injections w n ≤ n := by
  unfold injections
  exact (List.countP_le_length _).trans (by simp)

theorem injections_add (w : World) (m n : Nat) :
    injections w (m + n) = injections w m + injections (advance w m 0) n := by
  unfold injections
  rw [List.range_add, List.countP_append, List.countP_map]
  simp only [advance, Function.comp_def, Nat.add_assoc]

theorem flips_succ (b : Byte) (w : World) (k : Nat) :
    flips b w (k + 1) = flips (flipBit b (w.random.rand w.random.nr)) (advance w 1 1) k := by
  unfold flips
  rw [List.range_succ_eq_map, List.foldl_cons, List.foldl_map]
  simp only [advance, Nat.add_zero]
  congr 1
  funext acc j
  congr 2
  omega

theorem advance_advance (w : World) (n k n₁ k₁ : Nat) :
    advance (advance w n k) n₁ k₁ = advance w (n + n₁) (k + k₁) := by
  simp [advance, Nat.add_assoc]

theorem flips_advance_zero (b : Byte) (w : World) (n k : Nat) :
    flips b (advance w n 0) k = flips b w k := rfl

theorem flips_zero (b : Byte) (w : World) : flips b w 0 = b := rfl

theorem lossyByteLoop_eq (n : Nat) (b : Byte) (w : World) :
    lossyByteLoop n b w = (flips b w (injections w n), advance w n (injections w n)) := by
  induction n generalizing b w with
  | zero => simp [lossyByteLoop, injections, flips, advance]
  | succ n ih =>
    rw [lossyByteLoop, injections_succ]
    by_cases h : (w.random.drand48 w.random.nd).toDouble.lt w.store.ber = true
    · have h1 : lossyIteration b w
          = (flipBit b (w.random.rand w.random.nr), advance w 1 1) := by
        simp [lossyIteration, ber, h, advance]
      rw [h1]
      simp only [h, if_true]
      rw [ih, injections_advance_flip, Nat.add_comm 1, flips_succ, advance_advance]
      simp [Nat.add_comm]
    · have h1 : lossyIteration b w = (b, advance w 1 0) := by
        simp [lossyIteration, ber, h, advance]
      rw [h1]
      simp only [h, if_false]
      rw [ih, advance_advance, flips_advance_zero]
      simp [Nat.add_comm]

theorem lossyByte_eq (b : Byte) (w : World) :
    lossyByte b w = (flips b w (injections w 8), advance w 8 (injections w 8)) :=
  lossyByteLoop_eq 8 b w

/-! ## The loop over the buffer -/

theorem lossyBuffer_nil (w : World) : lossyBuffer [] w = ([], w) := rfl

theorem lossyBuffer_cons (b : Byte) (bs : List Byte) (w : World) :
    lossyBuffer (b :: bs) w =
      ((lossyByte b w).1 :: (lossyBuffer bs (lossyByte b w).2).1,
        (lossyBuffer bs (lossyByte b w).2).2) := rfl

theorem lossyBuffer_length (buffer : List Byte) (w : World) :
    (lossyBuffer buffer w).1.length = buffer.length := by
  induction buffer generalizing w with
  | nil => rfl
  | cons b bs ih => rw [lossyBuffer_cons]; simp [ih]

theorem lossyBuffer_world (buffer : List Byte) (w : World) :
    (lossyBuffer buffer w).2
      = advance w (8 * buffer.length) (injections w (8 * buffer.length)) := by
  induction buffer generalizing w with
  | nil => rfl
  | cons b bs ih =>
    rw [lossyBuffer_cons]
    simp only [ih, lossyByte_eq, advance_advance, List.length_cons]
    rw [injections_advance_flip, show 8 * (bs.length + 1) = 8 + 8 * bs.length by ring,
      injections_add]

theorem lossyBuffer_append (xs ys : List Byte) (w : World) :
    lossyBuffer (xs ++ ys) w =
      ((lossyBuffer xs w).1 ++ (lossyBuffer ys (lossyBuffer xs w).2).1,
        (lossyBuffer ys (lossyBuffer xs w).2).2) := by
  induction xs generalizing w with
  | nil => rfl
  | cons b bs ih =>
    rw [List.cons_append, lossyBuffer_cons, lossyBuffer_cons, ih]
    rfl

theorem decode_eq (buffer : List Byte) (w : World) :
    decode buffer w =
      { callerBuffer := (lossyBuffer buffer w).1
        world :=
          { (lossyBuffer buffer w).2 with
            baseCalls := (lossyBuffer buffer w).2.baseCalls
              ++ [BaseCall.decode (lossyBuffer buffer w).1 buffer.length] } } := rfl

theorem encode_eq (buffer : List Byte) (last : Bool) (w : World) :
    encode buffer last w =
      { callerBuffer := buffer
        world :=
          { (lossyBuffer buffer w).2 with
            baseCalls := (lossyBuffer buffer w).2.baseCalls
              ++ [BaseCall.encode (lossyBuffer buffer w).1 buffer.length last] } } := rfl

/-! ## Bits -/

theorem flipBit_val (b : Byte) (r : Nat) :
    (flipBit b r).val = b.val ^^^ (1 <<< (r % 8)) := by
  have hb : b.val < 2 ^ 8 := b.isLt
  have hr : r % 8 < 8 := Nat.mod_lt _ (by decide)
  have hm : 1 <<< (r % 8) < 2 ^ 8 := by
    rw [Nat.one_shiftLeft]
    exact Nat.pow_lt_pow_right (by decide) hr
  have hx : b.val ^^^ (1 <<< (r % 8)) < 2 ^ 8 := Nat.xor_lt_two_pow hb hm
  show (b.val ^^^ ((1 <<< (r % 8)) % 256)) % 256 = _
  rw [Nat.mod_eq_of_lt (show 1 <<< (r % 8) < 256 from hm),
    Nat.mod_eq_of_lt (show _ < 256 from hx)]

theorem flipBit_testBit (b : Byte) (r q : Nat) :
    (flipBit b r).val.testBit q = (b.val.testBit q ^^ decide (r % 8 = q)) := by
  rw [flipBit_val, Nat.testBit_xor, Nat.one_shiftLeft, Nat.testBit_two_pow]

theorem hamming_eq_popCount (a b : Byte) : hamming a b = popCount (a.val ^^^ b.val) := by
  unfold hamming popCount
  congr 1
  funext i
  rw [Nat.testBit_xor]

set_option maxRecDepth 100000 in
theorem popCount_flip : ∀ (d : Fin 256) (s : Fin 8),
    popCount (d.val ^^^ (1 <<< s.val)) = popCount d.val + 1 ∨
      popCount (d.val ^^^ (1 <<< s.val)) + 1 = popCount d.val := by
  decide

theorem hamming_self (a : Byte) : hamming a a = 0 := by
  unfold hamming
  simp

theorem hamming_flipBit (a c : Byte) (r : Nat) :
    hamming a (flipBit c r) = hamming a c + 1 ∨ hamming a (flipBit c r) + 1 = hamming a c := by
  rw [hamming_eq_popCount, hamming_eq_popCount, flipBit_val, ← Nat.xor_assoc]
  have hd : a.val ^^^ c.val < 256 :=
    Nat.xor_lt_two_pow (show a.val < 2 ^ 8 from a.isLt) (show c.val < 2 ^ 8 from c.isLt)
  exact popCount_flip ⟨a.val ^^^ c.val, hd⟩ ⟨r % 8, Nat.mod_lt _ (by decide)⟩

theorem hamming_flipBit_self (c : Byte) (r : Nat) : hamming c (flipBit c r) = 1 := by
  have h := hamming_flipBit c c r
  rw [hamming_self] at h
  omega

theorem hamming_flips (a c : Byte) (w : World) (k : Nat) :
    hamming a (flips c w k) ≤ hamming a c + k ∧
      hamming a (flips c w k) % 2 = (hamming a c + k) % 2 := by
  induction k generalizing c w with
  | zero => simp [flips_zero]
  | succ k ih =>
    rw [flips_succ]
    have h := ih (flipBit c (w.random.rand w.random.nr)) (advance w 1 1)
    have hf := hamming_flipBit a c (w.random.rand w.random.nr)
    omega

theorem flips_testBit (b : Byte) (w : World) (k q : Nat) :
    ((flips b w k).val.testBit q != b.val.testBit q) =
      decide ((List.range k).countP
        (fun j => decide (w.random.rand (w.random.nr + j) % 8 = q)) % 2 = 1) := by
  induction k generalizing b w with
  | zero => simp [flips_zero]
  | succ k ih =>
    rw [flips_succ, List.range_succ_eq_map, List.countP_cons, List.countP_map]
    have h := ih (flipBit b (w.random.rand w.random.nr)) (advance w 1 1)
    rw [flipBit_testBit] at h
    have hc : (List.range k).countP
          ((fun j => decide (w.random.rand (w.random.nr + j) % 8 = q)) ∘ Nat.succ)
        = (List.range k).countP (fun j =>
            decide ((advance w 1 1).random.rand ((advance w 1 1).random.nr + j) % 8 = q)) := by
      congr 1
      funext j
      simp only [advance, Function.comp_def]
      have hj : w.random.nr + j.succ = w.random.nr + 1 + j := by omega
      simp only [hj]
    rw [hc]
    simp only [Nat.add_zero]
    by_cases hq : w.random.rand w.random.nr % 8 = q
    · simp only [hq, decide_True, Bool.xor_true, if_true] at h ⊢
      cases hb : b.val.testBit q <;>
        cases hf : (flips (flipBit b (w.random.rand w.random.nr))
          (advance w 1 1) k).val.testBit q <;>
        simp [hb, hf] at h ⊢ <;> omega
    · simp only [hq, decide_False, Bool.xor_false, if_false] at h ⊢
      simpa using h

/-! ## No injection at a bit error rate of zero or less -/

theorem finite_not_lt_of_le_zero (n : Nat) (pe m e : Int)
    (h : finiteLe m e 0 0 = true) : finiteLt (n : Int) pe m e = false := by
  simp only [finiteLe, finiteLt, decide_eq_true_eq, decide_eq_false_iff_not, not_lt] at h ⊢
  have hm : m ≤ 0 := by
    by_contra hpos
    have hpos : 0 < m := not_le.mp hpos
    have : 0 < m * 2 ^ (e - min e 0).toNat := Int.mul_pos hpos (by positivity)
    simp at h
    omega
  have h1 : m * 2 ^ (e - min pe e).toNat ≤ 0 :=
    Int.mul_nonpos_of_nonpos_of_nonneg hm (by positivity)
  have h2 : (0 : Int) ≤ (n : Int) * 2 ^ (pe - min pe e).toNat :=
    Int.mul_nonneg (Int.ofNat_nonneg n) (by positivity)
  exact h1.trans h2

theorem draw_not_lt_of_le_zero (p : Draw) (d : Double) (h : d.le Double.zero = true) :
    p.toDouble.lt d = false := by
  cases d with
  | nan => rfl
  | negInf => rfl
  | posInf => simp [Double.le, Double.zero] at h
  | finite m e =>
    simp only [Double.le, Double.zero] at h
    exact finite_not_lt_of_le_zero p.num p.exp m e h

theorem injections_eq_zero (w : World) (n : Nat) (h : (ber w).le Double.zero = true) :
    injections w n = 0 := by
  unfold injections
  rw [List.countP_eq_zero]
  intro i _
  have hd := draw_not_lt_of_le_zero (w.random.drand48 (w.random.nd + i)) (ber w) h
  simp only [ber] at hd
  simp [hd]

theorem lossyByte_of_le_zero (b : Byte) (w : World) (h : (ber w).le Double.zero = true) :
    lossyByte b w = (b, advance w 8 0) := by
  rw [lossyByte_eq, injections_eq_zero w 8 h, flips_zero]

theorem lossyBuffer_of_le_zero (buffer : List Byte) (w : World)
    (h : (ber w).le Double.zero = true) :
    lossyBuffer buffer w = (buffer, advance w (8 * buffer.length) 0) := by
  induction buffer generalizing w with
  | nil => rfl
  | cons b bs ih =>
    rw [lossyBuffer_cons, lossyByte_of_le_zero b w h]
    have h8 : (ber (advance w 8 0)).le Double.zero = true := h
    rw [ih (advance w 8 0) h8, advance_advance]
    simp only [List.length_cons, Nat.add_zero]
    rw [show 8 + 8 * bs.length = 8 * (bs.length + 1) by ring]

/-- C1: with a bit error rate of zero or less the fault injector is transparent. For every
buffer, every `last` flag and every state of the random sources, `encode` and `decode`
forward to the base layer exactly the bytes they were given (with the same length and
flag), `decode` leaves the caller's buffer as it was, and the store, with its counter
`injected_errors`, is unchanged; `lossyByte(b)` is `b` for every byte `b`. -/
theorem lossy_transparent_without_errors (buffer : List Byte) (last : Bool) (w : World)
    (h : (ber w).le Double.zero = true) :
    (encode buffer last w).world.baseCalls
        = w.baseCalls ++ [BaseCall.encode buffer buffer.length last]
      ∧ (encode buffer last w).world.store = w.store
      ∧ (decode buffer w).world.baseCalls
        = w.baseCalls ++ [BaseCall.decode buffer buffer.length]
      ∧ (decode buffer w).callerBuffer = buffer
      ∧ (decode buffer w).world.store = w.store
      ∧ ∀ b : Byte, (lossyByte b w).1 = b ∧ (lossyByte b w).2.store = w.store := by
  refine ⟨?_, ?_, ?_, ?_, ?_, ?_⟩
  · rw [encode_eq, lossyBuffer_of_le_zero buffer w h]; rfl
  · rw [encode_eq, lossyBuffer_of_le_zero buffer w h]; rfl
  · rw [decode_eq, lossyBuffer_of_le_zero buffer w h]; rfl
  · rw [decode_eq, lossyBuffer_of_le_zero buffer w h]
  · rw [decode_eq, lossyBuffer_of_le_zero buffer w h]; rfl
  · intro b
    rw [lossyByte_of_le_zero b w h]
    exact ⟨rfl, rfl⟩

/-- Witness of C1: the hypothesis holds in `quietWorld`, whose bit error rate is `0.0`, and
there `encode` forwards the buffer `[1, 2]` as it is. -/
theorem lossy_transparent_without_errors_witness :
    (ber quietWorld).le Double.zero = true
      ∧ (encode [1, 2] true quietWorld).world.baseCalls
        = quietWorld.baseCalls ++ [BaseCall.encode [1, 2] [1, 2].length true] :=
  ⟨by decide, (lossy_transparent_without_errors [1, 2] true quietWorld (by decide)).1⟩

/-! ## The buffer is forwarded whole -/

/-- C9: the fault injector never fragments, truncates or extends traffic. `encode` makes
exactly one call on the base class, `base::encode` with a buffer of exactly `len` bytes,
the length `len` and the same `last` flag, and leaves the caller's buffer as it was;
`decode` makes exactly one call, `base::decode` with `len` bytes; the bytes are processed
in increasing index order: the byte at an index is passed through `lossyByte` in the world
left by the bytes before it. -/
theorem lossy_forwards_whole_buffer (buffer : List Byte) (last : Bool) (w : World) :
    (encode buffer last w).world.baseCalls
        = w.baseCalls ++ [BaseCall.encode (lossyBuffer buffer w).1 buffer.length last]
      ∧ (decode buffer w).world.baseCalls
        = w.baseCalls ++ [BaseCall.decode (lossyBuffer buffer w).1 buffer.length]
      ∧ (lossyBuffer buffer w).1.length = buffer.length
      ∧ (encode buffer last w).callerBuffer = buffer
      ∧ (decode buffer w).callerBuffer = (lossyBuffer buffer w).1
      ∧ ∀ (before after : List Byte) (b : Byte), buffer = before ++ b :: after →
          (lossyBuffer buffer w).1
            = (lossyBuffer before w).1 ++ (lossyByte b (lossyBuffer before w).2).1
                :: (lossyBuffer after (lossyByte b (lossyBuffer before w).2).2).1 := by
  refine ⟨?_, ?_, lossyBuffer_length buffer w, rfl, rfl, ?_⟩
  · rw [encode_eq, lossyBuffer_world]; rfl
  · rw [decode_eq, lossyBuffer_world]; rfl
  · intro before after b hb
    rw [hb, lossyBuffer_append, lossyBuffer_cons]

/-- Witness of C9: in `firstDrawWorld` the buffer `[1, 2, 3]` splits into `[1]`, the byte
`2` and `[3]`, and the forwarded buffer is composed accordingly. -/
theorem lossy_forwards_whole_buffer_witness :
    ([1, 2, 3] : List Byte) = [1] ++ 2 :: [3]
      ∧ (lossyBuffer [1, 2, 3] firstDrawWorld).1
        = (lossyBuffer [1] firstDrawWorld).1
          ++ (lossyByte 2 (lossyBuffer [1] firstDrawWorld).2).1
            :: (lossyBuffer [3] (lossyByte 2 (lossyBuffer [1] firstDrawWorld).2).2).1 :=
  ⟨rfl,
    (lossy_forwards_whole_buffer [1, 2, 3] true firstDrawWorld).2.2.2.2.2 [1] [3] 2 rfl⟩

/-! ## Injections, the counter and the bits that differ -/

theorem injections_eq_of_all (w : World) (n : Nat)
    (h : ∀ i, i < n → (w.random.drand48 (w.random.nd + i)).toDouble.lt (ber w) = true) :
    injections w n = n := by
  unfold injections
  have hl : (List.range n).countP
      (fun i => (w.random.drand48 (w.random.nd + i)).toDouble.lt w.store.ber)
      = (List.range n).length := by
    rw [List.countP_eq_length]
    intro i hi
    exact h i (List.mem_range.mp hi)
  rw [hl, List.length_range]

theorem hamming_lossyByte (b : Byte) (w : World) :
    hamming b (lossyByte b w).1 ≤ injections w 8 ∧
      hamming b (lossyByte b w).1 % 2 = injections w 8 % 2 := by
  have h := hamming_flips b b w (injections w 8)
  rw [hamming_self, Nat.zero_add] at h
  rw [lossyByte_eq]
  exact h

theorem hammingBuffer_lossyBuffer (buffer : List Byte) (w : World) :
    hammingBuffer buffer (lossyBuffer buffer w).1 ≤ injections w (8 * buffer.length) ∧
      hammingBuffer buffer (lossyBuffer buffer w).1 % 2
        = injections w (8 * buffer.length) % 2 := by
  induction buffer generalizing w with
  | nil => simp [lossyBuffer_nil, hammingBuffer, injections]
  | cons b bs ih =>
    rw [lossyBuffer_cons]
    simp only [hammingBuffer, List.length_cons]
    have h1 := hamming_lossyByte b w
    have h2 := ih (lossyByte b w).2
    rw [show 8 * (bs.length + 1) = 8 + 8 * bs.length by ring, injections_add]
    have h3 : injections (lossyByte b w).2 (8 * bs.length)
        = injections (advance w 8 0) (8 * bs.length) := by
      rw [lossyByte_eq, injections_advance_flip]
    rw [h3] at h2
    omega

/-- C10: for every byte `b` and every world (bit error rate, random sources), let `k` be the
increase of `store.injected_errors` over one call `lossyByte(b)`. The counter does not
decrease and `k ≤ 8`; one iteration of the loop either injects (one more on the counter,
exactly one bit of the byte changed) or leaves byte and counter alone; the number of bit
positions in which `lossyByte(b)` differs from `b` is at most `k` and has the parity of
`k`, so that an odd `k` always corrupts the byte; and when all eight draws are below the
bit error rate, `k = 8` and the output differs from `b` in an even number of positions. -/
theorem lossyByte_counter_bounds (b : Byte) (w : World) :
    w.store.injected_errors ≤ (lossyByte b w).2.store.injected_errors
      ∧ (lossyByte b w).2.store.injected_errors - w.store.injected_errors ≤ 8
      ∧ (∀ (c : Byte) (v : World),
          ((lossyIteration c v).2.store.injected_errors = v.store.injected_errors + 1
              ∧ hamming c (lossyIteration c v).1 = 1)
            ∨ ((lossyIteration c v).2.store.injected_errors = v.store.injected_errors
              ∧ (lossyIteration c v).1 = c))
      ∧ hamming b (lossyByte b w).1
          ≤ (lossyByte b w).2.store.injected_errors - w.store.injected_errors
      ∧ hamming b (lossyByte b w).1 % 2
          = ((lossyByte b w).2.store.injected_errors - w.store.injected_errors) % 2
      ∧ (((lossyByte b w).2.store.injected_errors - w.store.injected_errors) % 2 = 1 →
          (lossyByte b w).1 ≠ b)
      ∧ ((∀ i, i < 8 → (w.random.drand48 (w.random.nd + i)).toDouble.lt (ber w) = true) →
          (lossyByte b w).2.store.injected_errors - w.store.injected_errors = 8
            ∧ hamming b (lossyByte b w).1 % 2 = 0) := by
  have hk : (lossyByte b w).2.store.injected_errors
      = w.store.injected_errors + injections w 8 := by
    rw [lossyByte_eq]; rfl
  have hle := injections_le w 8
  have hh := hamming_lossyByte b w
  have hsub : (lossyByte b w).2.store.injected_errors - w.store.injected_errors
      = injections w 8 := by omega
  rw [hsub]
  refine ⟨by omega, hle, ?_, hh.1, hh.2, ?_, ?_⟩
  · intro c v
    by_cases hp : (v.random.drand48 v.random.nd).toDouble.lt v.store.ber = true
    · left
      have h1 : lossyIteration c v
          = (flipBit c (v.random.rand v.random.nr), advance v 1 1) := by
        simp [lossyIteration, ber, hp, advance]
      rw [h1]
      exact ⟨rfl, hamming_flipBit_self c _⟩
    · right
      have h1 : lossyIteration c v = (c, advance v 1 0) := by
        simp [lossyIteration, ber, hp, advance]
      rw [h1]
      exact ⟨rfl, rfl⟩
  · intro hodd heq
    rw [heq, hamming_self] at hh
    omega
  · intro hall
    have h8 := injections_eq_of_all w 8 hall
    rw [h8] at hh
    exact ⟨h8, by omega⟩

/-- Witness of C10: in `sameBitWorld` all eight draws are below the bit error rate, so one
call of `lossyByte` adds 8 to the counter and changes an even number of bits; in
`firstDrawWorld` one call adds 1 to the counter, an odd number, and the byte changes. -/
theorem lossyByte_counter_bounds_witness :
    (∀ i, i < 8 →
        (sameBitWorld.random.drand48 (sameBitWorld.random.nd + i)).toDouble.lt
          (ber sameBitWorld) = true)
      ∧ ((lossyByte 0 sameBitWorld).2.store.injected_errors
            - sameBitWorld.store.injected_errors = 8
          ∧ hamming 0 (lossyByte 0 sameBitWorld).1 % 2 = 0)
      ∧ ((lossyByte 0 firstDrawWorld).2.store.injected_errors
          - firstDrawWorld.store.injected_errors) % 2 = 1
      ∧ (lossyByte 0 firstDrawWorld).1 ≠ 0 :=
  ⟨fun _ _ =>
      (by decide : (Draw.toDouble { num := 0, exp := -48 }).lt (Double.finite 1 0) = true),
    (lossyByte_counter_bounds 0 sameBitWorld).2.2.2.2.2.2
      (fun _ _ =>
        (by decide : (Draw.toDouble { num := 0, exp := -48 }).lt (Double.finite 1 0) = true)),
    by decide,
    (lossyByte_counter_bounds 0 firstDrawWorld).2.2.2.2.2.1 (by decide)⟩

/-- C2, as stated, fails: with a bit error rate of `0.5`, the draws `0.0, 0.75, 0.75, ...`
and `rand()` returning `3`, `lossyByte(0)` is `8`. Bit 3 differs although draw 3 is not
below the rate, and bit 0 does not differ although draw 0 is below it. -/
theorem lossyByte_bit_not_by_own_draw :
    (lossyByte 0 firstDrawWorld).1 = 8
      ∧ ¬ (∀ i, i < 8 →
        (((lossyByte 0 firstDrawWorld).1.val.testBit i ≠ (0 : Byte).val.testBit i) ↔
          (firstDrawWorld.random.drand48 (firstDrawWorld.random.nd + i)).toDouble.lt
            (ber firstDrawWorld) = true)) := by
  have h8 : (lossyByte 0 firstDrawWorld).1 = 8 := by decide
  refine ⟨h8, ?_⟩
  intro h
  have h0 := h 0 (by decide)
  rw [h8] at h0
  revert h0
  decide

/-- C2, amended: each probability draw below the bit error rate flips one bit, at the
position `rand() % 8` given by the next value of `rand()` and not at the index of the
draw. For every byte, every world and every bit index `q`, bit `q` of `lossyByte(b)`
differs from bit `q` of `b` if and only if an odd number of the `k` injections drew the
position `q`, where `k` is the number of the eight probability draws below the rate and
the `j`-th injection uses the `j`-th value of `rand()`. -/
theorem lossyByte_bit_differs_iff (b : Byte) (w : World) (q : Nat) :
    ((lossyByte b w).1.val.testBit q ≠ b.val.testBit q) ↔
      ((List.range
          ((List.range 8).countP
            (fun i => (w.random.drand48 (w.random.nd + i)).toDouble.lt (ber w)))).countP
        (fun j => decide (w.random.rand (w.random.nr + j) % 8 = q))) % 2 = 1 := by
  have h := flips_testBit b w (injections w 8) q
  rw [lossyByte_eq]
  show _ ↔ (List.countP _ (List.range (injections w 8))) % 2 = 1
  rw [← decide_eq_true_iff (p := List.countP _ (List.range (injections w 8)) % 2 = 1), ← h]
  simp

/-- C3, as stated, fails: with a bit error rate of `1.0` and `rand()` returning `0`, all
eight injections of `lossyByte(0)` flip bit 0. `encode` forwards the byte unchanged, no
bit position differs, and the counter has grown by 8. -/
theorem counter_exceeds_differing_bits :
    (encode [0] true sameBitWorld).world.baseCalls = [BaseCall.encode [0] 1 true]
      ∧ (encode [0] true sameBitWorld).world.store.injected_errors = 8
      ∧ sameBitWorld.store.injected_errors = 0
      ∧ ¬ ((encode [0] true sameBitWorld).world.store.injected_errors
            - sameBitWorld.store.injected_errors
          = hammingBuffer [0] (lossyBuffer [0] sameBitWorld).1) := by
  decide

/-- C3, amended: the counter counts the injections. For every buffer passed to `encode` or
`decode` and every world, the counter does not decrease, and its increase over the call is
the number of probability draws below the bit error rate among the `8 * len` draws of the
call (one increment per injection, each flipping one bit of the byte being processed); the
number of bit positions in which the forwarded buffer differs from the input is at most
this increase and differs from it by an even number. -/
theorem counter_counts_injections (buffer : List Byte) (last : Bool) (w : World) :
    (encode buffer last w).world.baseCalls
        = w.baseCalls ++ [BaseCall.encode (lossyBuffer buffer w).1 buffer.length last]
      ∧ (decode buffer w).world.baseCalls
        = w.baseCalls ++ [BaseCall.decode (lossyBuffer buffer w).1 buffer.length]
      ∧ (encode buffer last w).world.store.injected_errors
        = w.store.injected_errors
          + (List.range (8 * buffer.length)).countP
              (fun i => (w.random.drand48 (w.random.nd + i)).toDouble.lt (ber w))
      ∧ (decode buffer w).world.store.injected_errors
        = (encode buffer last w).world.store.injected_errors
      ∧ w.store.injected_errors ≤ (encode buffer last w).world.store.injected_errors
      ∧ hammingBuffer buffer (lossyBuffer buffer w).1
        ≤ (encode buffer last w).world.store.injected_errors - w.store.injected_errors
      ∧ ((encode buffer last w).world.store.injected_errors - w.store.injected_errors
          - hammingBuffer buffer (lossyBuffer buffer w).1) % 2 = 0 := by
  have hb := hammingBuffer_lossyBuffer buffer w
  have he : (encode buffer last w).world.store.injected_errors
      = w.store.injected_errors + injections w (8 * buffer.length) := by
    rw [encode_eq, lossyBuffer_world]; rfl
  have hd : (decode buffer w).world.store.injected_errors
      = w.store.injected_errors + injections w (8 * buffer.length) := by
    rw [decode_eq, lossyBuffer_world]; rfl
  refine ⟨?_, ?_, he, by rw [he, hd], by omega, by omega, by omega⟩
  · rw [encode_eq, lossyBuffer_world]; rfl
  · rw [decode_eq, lossyBuffer_world]; rfl

/-! ## `mtu()` -/

/-- C4: `LossyChannel::mtu()` returns the MTU configured in the store, converted to
`size_t`, in every chain and every world: two calls return the same value as soon as the
two stores hold the same `MTU`, whatever the neighbours of the layer, the `mtu()` of the
other layers, the bit error rate, the injected-error counter and the random sources are;
and the call leaves the world as it was. -/
theorem mtu_is_store_value (asSizeT : SizeConversion) (c c₁ : Chain)
    (mtuOf mtuOf₁ : LayerId → Nat) (w w₁ : World) (h : w.store.MTU = w₁.store.MTU) :
    (mtu asSizeT c mtuOf w).1 = asSizeT w.store.MTU
      ∧ (mtu asSizeT c₁ mtuOf₁ w₁).1 = (mtu asSizeT c mtuOf w).1
      ∧ (mtu asSizeT c mtuOf w).2 = w := by
  refine ⟨rfl, ?_, rfl⟩
  show asSizeT w₁.store.MTU = asSizeT w.store.MTU
  rw [h]

/-- Witness of C4: `quietWorld` and `sameBitWorld` hold the same `MTU` and differ in bit
error rate, counter and random sources; `mtu()` returns the same value in both, for a
layer with and without neighbours. -/
theorem mtu_is_store_value_witness :
    quietWorld.store.MTU = sameBitWorld.store.MTU
      ∧ (mtu id freshLayers (fun _ => 0) sameBitWorld).1
        = (mtu id assembledChain (fun _ => 1500) quietWorld).1 :=
  ⟨by decide,
    (mtu_is_store_value id assembledChain freshLayers (fun _ => 1500) (fun _ => 0)
      quietWorld sameBitWorld (by decide)).2.1⟩

/-! ## The chain that `main` assembles -/

theorem downPath_head (c : Chain) (fuel : Nat) (l : LayerId) :
    downPath c (fuel + 1) l = [l] ∨ ∃ rest, downPath c (fuel + 1) l = l :: rest := by
  rw [downPath]
  cases (c l).down with
  | none => exact Or.inl rfl
  | some d => exact Or.inr ⟨_, rfl⟩

/-- C5, as stated, fails: the layer the synchronizer is connected to is the
`SegmentationLayer`, so no walk along the down neighbours from it visits exactly
`arq, crc, escape, terminal, buffer, lossy, zmq`: the walk starts with `segmentation`. -/
theorem chain_does_not_start_at_arq :
    ¬ ∃ fuel, downPath assembledChain fuel connectedLayer
        = [LayerId.arq, LayerId.crc, LayerId.escape, LayerId.terminal, LayerId.buffer,
            LayerId.lossy, LayerId.zmq] := by
  rintro ⟨fuel, h⟩
  cases fuel with
  | zero => simp [downPath] at h
  | succ n =>
    rcases downPath_head assembledChain n connectedLayer with h1 | ⟨rest, h1⟩
    · rw [h1] at h; simp at h
    · rw [h1] at h
      simp [connectedLayer] at h

/-- C5, amended: after the `wrap` calls of `main`, starting at the layer the synchronizer
is connected to (the `SegmentationLayer`) and following down neighbours visits exactly, in
this order, `segmentation, arq, crc, escape, terminal, buffer, lossy, zmq` (with any bound
of at least eight layers on the walk); `segmentation` is the only layer without an up
neighbour, `zmq` the only one without a down neighbour, and `y` is the down neighbour of
`x` if and only if `x` is the up neighbour of `y`. -/
theorem chain_after_assembly :
    (∀ k, downPath assembledChain (k + 8) connectedLayer
        = [LayerId.segmentation, LayerId.arq, LayerId.crc, LayerId.escape, LayerId.terminal,
            LayerId.buffer, LayerId.lossy, LayerId.zmq])
      ∧ (∀ l, (assembledChain l).up = none ↔ l = LayerId.segmentation)
      ∧ (∀ l, (assembledChain l).down = none ↔ l = LayerId.zmq)
      ∧ (∀ x y, (assembledChain x).down = some y ↔ (assembledChain y).up = some x) := by
  refine ⟨?_, ?_, ?_, ?_⟩
  · intro k
    rfl
  · intro l
    cases l <;> decide
  · intro l
    cases l <;> decide
  · intro x y
    cases x <;> cases y <;> decide

/-! ## The loop of `main` -/

theorem loopBody_of_failed (E : Errno) (it : Iteration) (h : pollFailed E it = true) :
    loopBody E it = ([Event.poll 100, Event.perror "poll failed"], some 1) := by
  simp only [pollFailed, Bool.and_eq_true, Bool.not_eq_true', Bool.or_eq_false_iff,
    decide_eq_false_iff_not] at h
  simp [loopBody, h.1, h.2.1, h.2.2]

theorem loopBody_of_not_failed (E : Errno) (it : Iteration) (h : pollFailed E it = false) :
    loopBody E it = ([Event.poll 100, Event.recv, Event.process], none) := by
  unfold loopBody
  by_cases he : it.resultEmpty = true
  · by_cases hn : it.errno = E.EAGAIN ∨ it.errno = E.EINTR
    · simp [he, hn]
    · exfalso
      simp only [not_or] at hn
      simp [pollFailed, he, hn.1, hn.2] at h
  · simp [he]

theorem mainLoop_cons_failed (E : Errno) (it : Iteration) (rest : List Iteration)
    (h : pollFailed E it = true) :
    mainLoop E (it :: rest) = ([Event.poll 100, Event.perror "poll failed"], some 1) := by
  rw [mainLoop, loopBody_of_failed E it h]

theorem mainLoop_cons_not_failed (E : Errno) (it : Iteration) (rest : List Iteration)
    (h : pollFailed E it = false) :
    mainLoop E (it :: rest)
      = ([Event.poll 100, Event.recv, Event.process] ++ (mainLoop E rest).1,
          (mainLoop E rest).2) := by
  rw [mainLoop, loopBody_of_not_failed E it h]

theorem mainLoop_returns (E : Errno) (env : List Iteration) (code : Int)
    (h : (mainLoop E env).2 = some code) :
    code = 1 ∧ ∃ before it after, env = before ++ it :: after
      ∧ (∀ x ∈ before, pollFailed E x = false) ∧ pollFailed E it = true
      ∧ (mainLoop E env).1
        = passes before.length
          ++ [Event.poll 100, Event.perror "poll failed"] := by
  induction env with
  | nil => simp [mainLoop] at h
  | cons it rest ih =>
    by_cases hf : pollFailed E it = true
    · rw [mainLoop_cons_failed E it rest hf] at h ⊢
      simp only [Option.some.injEq] at h
      exact ⟨h.symm, [], it, rest, rfl, by simp, hf, rfl⟩
    · have hf : pollFailed E it = false := by simpa using hf
      rw [mainLoop_cons_not_failed E it rest hf] at h ⊢
      obtain ⟨hc, before, x, after, henv, hb, hx, hev⟩ := ih h
      refine ⟨hc, it :: before, x, after, by rw [henv]; rfl, ?_, hx, ?_⟩
      · intro y hy
        rcases List.mem_cons.mp hy with rfl | hy
        · exact hf
        · exact hb y hy
      · simp only [hev, List.length_cons, passes, List.append_assoc]

theorem mainLoop_keeps_looping (E : Errno) (env : List Iteration)
    (h : ∀ x ∈ env, pollFailed E x = false) :
    mainLoop E env
      = (passes env.length, none) := by
  induction env with
  | nil => rfl
  | cons it rest ih =>
    rw [mainLoop_cons_not_failed E it rest (h it (List.mem_cons_self _ _)),
      ih (fun x hx => h x (List.mem_cons_of_mem _ hx))]
    rfl

theorem mainLoop_append_failed (E : Errno) (before : List Iteration) (it : Iteration)
    (after : List Iteration) (hb : ∀ x ∈ before, pollFailed E x = false)
    (h : pollFailed E it = true) :
    mainLoop E (before ++ it :: after)
      = (passes before.length ++ [Event.poll 100, Event.perror "poll failed"], some 1) := by
  induction before with
  | nil => exact mainLoop_cons_failed E it after h
  | cons x xs ih =>
    rw [List.cons_append, mainLoop_cons_not_failed E x _ (hb x (List.mem_cons_self _ _)),
      ih (fun y hy => hb y (List.mem_cons_of_mem _ hy))]
    rfl

/-- C6: one step of the event loop polls with the timeout of 100 ms; when the result is empty
and `errno` is neither `EAGAIN` nor `EINTR`, `main` reports the failure and returns 1
without calling `recv()` or `process()` in that iteration; in every other case it calls
`zmq.recv()` once, then `synchronizer.process()` once, and goes on with the next
iteration. So `main` never returns 0; when it returns, it returns 1 in the first
iteration whose poll failed, all iterations before having made the three calls; it does
return 1 in such an iteration; and as long as no poll fails it keeps looping. -/
theorem main_loop_step (E : Errno) :
    (∀ it, it.resultEmpty = true → it.errno ≠ E.EAGAIN → it.errno ≠ E.EINTR →
        loopBody E it = ([Event.poll 100, Event.perror "poll failed"], some 1))
      ∧ (∀ it, (it.resultEmpty = false ∨ it.errno = E.EAGAIN ∨ it.errno = E.EINTR) →
        loopBody E it = ([Event.poll 100, Event.recv, Event.process], none))
      ∧ (∀ it rest, (it.resultEmpty = false ∨ it.errno = E.EAGAIN ∨ it.errno = E.EINTR) →
        mainLoop E (it :: rest)
          = ([Event.poll 100, Event.recv, Event.process] ++ (mainLoop E rest).1,
              (mainLoop E rest).2))
      ∧ (∀ env, (mainLoop E env).2 ≠ some 0)
      ∧ (∀ env code, (mainLoop E env).2 = some code →
        code = 1 ∧ ∃ before it after, env = before ++ it :: after
          ∧ (∀ x ∈ before, x.resultEmpty = false ∨ x.errno = E.EAGAIN ∨ x.errno = E.EINTR)
          ∧ (it.resultEmpty = true ∧ it.errno ≠ E.EAGAIN ∧ it.errno ≠ E.EINTR)
          ∧ (mainLoop E env).1
            = passes before.length
              ++ [Event.poll 100, Event.perror "poll failed"])
      ∧ (∀ before it after,
        (∀ x ∈ before, x.resultEmpty = false ∨ x.errno = E.EAGAIN ∨ x.errno = E.EINTR) →
        it.resultEmpty = true → it.errno ≠ E.EAGAIN → it.errno ≠ E.EINTR →
        mainLoop E (before ++ it :: after)
          = (passes before.length ++ [Event.poll 100, Event.perror "poll failed"], some 1))
      ∧ (∀ env,
        (∀ x ∈ env, x.resultEmpty = false ∨ x.errno = E.EAGAIN ∨ x.errno = E.EINTR) →
        mainLoop E env = (passes env.length, none)) := by
  have hT : ∀ it : Iteration, pollFailed E it = true ↔
      (it.resultEmpty = true ∧ it.errno ≠ E.EAGAIN ∧ it.errno ≠ E.EINTR) := by
    intro it
    simp [pollFailed]
  have hF : ∀ it : Iteration, pollFailed E it = false ↔
      (it.resultEmpty = false ∨ it.errno = E.EAGAIN ∨ it.errno = E.EINTR) := by
    intro it
    cases hr : it.resultEmpty
    · simp [pollFailed, hr]
    · simp [pollFailed, hr]
      tauto
  refine ⟨?_, ?_, ?_, ?_, ?_, ?_, ?_⟩
  · intro it h1 h2 h3
    exact loopBody_of_failed E it ((hT it).mpr ⟨h1, h2, h3⟩)
  · intro it h
    exact loopBody_of_not_failed E it ((hF it).mpr h)
  · intro it rest h
    exact mainLoop_cons_not_failed E it rest ((hF it).mpr h)
  · intro env h
    have := (mainLoop_returns E env 0 h).1
    omega
  · intro env code h
    obtain ⟨hc, before, it, after, henv, hb, hi, hev⟩ := mainLoop_returns E env code h
    exact ⟨hc, before, it, after, henv, fun x hx => (hF x).mp (hb x hx), (hT it).mp hi, hev⟩
  · intro before it after hb h1 h2 h3
    exact mainLoop_append_failed E before it after (fun x hx => (hF x).mpr (hb x hx))
      ((hT it).mpr ⟨h1, h2, h3⟩)
  · intro env h
    exact mainLoop_keeps_looping E env (fun x hx => (hF x).mpr (h x hx))

/-- Witness of C6: with `EAGAIN = 11` and `EINTR = 4`, an empty result with `errno = 9` ends
`main` with 1 after the poll, an empty result with `errno = 11` (timeout) is followed by
`recv()` and `process()`, and a run of a timeout, a ready event and a failed poll returns
1 in its third iteration. -/
theorem main_loop_step_witness :
    loopBody { EAGAIN := 11, EINTR := 4 } { resultEmpty := true, errno := 9, recvStatus := 0 }
        = ([Event.poll 100, Event.perror "poll failed"], some 1)
      ∧ loopBody { EAGAIN := 11, EINTR := 4 }
          { resultEmpty := true, errno := 11, recvStatus := 0 }
        = ([Event.poll 100, Event.recv, Event.process], none)
      ∧ mainLoop { EAGAIN := 11, EINTR := 4 }
          ([{ resultEmpty := true, errno := 11, recvStatus := 0 },
              { resultEmpty := false, errno := 0, recvStatus := 0 }]
            ++ { resultEmpty := true, errno := 9, recvStatus := 0 } :: [])
        = (passes 2 ++ [Event.poll 100, Event.perror "poll failed"], some 1) :=
  ⟨(main_loop_step { EAGAIN := 11, EINTR := 4 }).1
      { resultEmpty := true, errno := 9, recvStatus := 0 } rfl (by decide) (by decide),
    (main_loop_step { EAGAIN := 11, EINTR := 4 }).2.1
      { resultEmpty := true, errno := 11, recvStatus := 0 } (Or.inr (Or.inl rfl)),
    (main_loop_step { EAGAIN := 11, EINTR := 4 }).2.2.2.2.2.1
      [{ resultEmpty := true, errno := 11, recvStatus := 0 },
        { resultEmpty := false, errno := 0, recvStatus := 0 }]
      { resultEmpty := true, errno := 9, recvStatus := 0 } []
      (by decide) rfl (by decide) (by decide)⟩

/-- C7: evaluation of the loop where `zmq.recv()` fails. With `EAGAIN = 11` and `EINTR = 4`,
in an iteration whose poll reports a ready event and whose `zmq.recv()` ends with the
error 88 (`ENOTSOCK`), `main` goes on to `synchronizer.process()` and to the next
iteration, and does not return. -/
theorem main_ignores_recv_failure :
    mainLoop { EAGAIN := 11, EINTR := 4 }
        [{ resultEmpty := false, errno := 0, recvStatus := 88 },
          { resultEmpty := false, errno := 0, recvStatus := 0 }]
      = ([Event.poll 100, Event.recv, Event.process,
            Event.poll 100, Event.recv, Event.process], none) := by
  decide

/-- C8: evaluation of the state in which `main` enters its loop. The poller has no readiness
source, and the pollable constructed for `zmq` with `PollIn` is not registered with
it. -/
theorem main_poller_has_no_source :
    mainSetup.poller.sources = []
      ∧ mainSetup.pollableZmq = { layer := LayerId.zmq, events := PollEvents.PollIn }
      ∧ mainSetup.pollableZmq ∉ mainSetup.poller.sources := by
  decide

end LibStored.Arq
